import Mathlib

/-!
Package genfp: generic functional helpers over Go slices.

A shallow embedding of `main.go` (package `genfp`) and the properties of its
seven exported functions.

Modelling conventions

* A Go slice `[]E` is the `List E` of its visible elements (indices `0 .. len-1`).
* An index expression `s[i]` is `s[i]?`; an out-of-range index (a Go run-time
  panic) is the result `none`, so every function that indexes returns an
  `Option`.
* `make([]E, n)` is `n` copies of the zero value of `E`, written `default`.
* `sort.Slice` belongs to the Go standard library, not to this package.  It is a
  parameter `sortSlice` of the two sort functions, and what the library
  documents about it is the predicate `SortSliceContract`.  `sortSliceInsertion`
  is one sorter that meets the contract (the insertion sort the library runs on
  short ranges); it is used to evaluate the sort functions on concrete inputs.
* For the frame properties the heap of backing arrays is explicit: `Heap E` is
  the list of backing arrays, an address is a position in it.
* Where nil-ness matters a slice is a `GoSlice E`, its elements together with
  the flag `isNil`; `FilterSlice` is `Filter` on such slices.
* Where the calls of a caller-supplied function matter the function passes a
  state: `MapEff` is `Map` for a transform `E → σ → F × σ`.
* The operator `==` of the element type is an arbitrary total `BEq E`; it need
  not be identity (for a `float64`, `+0 == -0`).
* Where a panic of `==` or of a caller-supplied function matters, the
  comparison or function returns an `Option`: `ContainsChecked`,
  `FilterChecked` and `ReduceChecked` are `Contains`, `Filter` and `Reduce` with
  the panic as `none`.
-/

namespace genfp

universe u v

/-! ## Contains -/

/-- Function `Contains` of main.go, lines 14-21: the `range` loop over `s` returns `true`
at the first element `vs` with `v == vs`, and `false` when the loop runs out. -/
def Contains {E : Type u} [BEq E] : List E → E → Bool
  | [], _ => false
  | vs :: rest, v => if v == vs then true else Contains rest v

/-! ## Slice primitives -/

/-- Go's `make([]E, n)`: a slice of `n` zero values. -/
def make (E : Type u) [Inhabited E] (n : Nat) : List E :=
  List.replicate n default

/-- Go's builtin `copy(dst, src)`: the first `min (len dst) (len src)` elements
of `dst` are overwritten with those of `src`; `dst` keeps its length. -/
def copy {E : Type u} (dst src : List E) : List E :=
  src.take dst.length ++ dst.drop src.length

/-- The assignment `s[i] = v`; `none` is the index-out-of-range panic. -/
def setIndex {E : Type u} (s : List E) (i : Nat) (v : E) : Option (List E) :=
  if i < s.length then some (s.set i v) else none

/-! ## Reverse -/

/-- The loop of `Reverse`, main.go lines 26-28:
`for i := len(s) - 1; i >= 0; i-- { result = append(result, s[i]) }`.
The counter of the recursion is `i + 1`, so that `i >= 0` fails exactly at
counter `0`; `s[i]?` returning `none` is the index panic. -/
def Reverse.loop {E : Type u} (s : List E) : Nat → List E → Option (List E)
  | 0, result => some result
  | i + 1, result =>
    match s[i]? with
    | some x => Reverse.loop s i (result ++ [x])
    | none => none

/-- Function `Reverse` of main.go, lines 24-30.  `make([]E, 0, len(s))` has length `0`,
so `result` starts empty; the loop starts at `i = len(s) - 1`. -/
def Reverse {E : Type u} (s : List E) : Option (List E) :=
  Reverse.loop s s.length []

/-! ## Map, Filter, Reduce -/

/-- The loop of `Map`, main.go lines 55-57:
`for i := range s { result[i] = f(s[i]) }`.  The first counter is the number of
iterations left, the second is `i`. -/
def Map.loop {E : Type u} {F : Type v} (s : List E) (f : E → F) :
    Nat → Nat → List F → Option (List F)
  | 0, _, result => some result
  | n + 1, i, result =>
    match s[i]? with
    | none => none
    | some x =>
      match setIndex result i (f x) with
      | none => none
      | some result1 => Map.loop s f n (i + 1) result1

/-- Function `Map` of main.go, lines 53-59: `result := make([]F, len(s))`, then the loop
over the `len(s)` indices of `s`. -/
def Map {E : Type u} {F : Type v} [Inhabited F] (s : List E) (f : E → F) : Option (List F) :=
  Map.loop s f s.length 0 (make F s.length)

/-- The loop of `Filter`, main.go lines 64-68: each `v` of `s` in order is
appended to `result` when `f(v)` holds. -/
def Filter.loop {E : Type u} (f : E → Bool) : List E → List E → List E
  | [], result => result
  | v :: rest, result =>
    if f v then Filter.loop f rest (result ++ [v]) else Filter.loop f rest result

/-- Function `Filter` of main.go, lines 62-70: `result := []E{}`, then the loop. -/
def Filter {E : Type u} (s : List E) (f : E → Bool) : List E :=
  Filter.loop f s []

/-- Function `Reduce` of main.go, lines 73-79: `cur := init`, then `cur = f(cur, v)` for
each `v` of `s` in order; the second argument is `cur`. -/
def Reduce {E : Type u} : List E → E → (E → E → E) → E
  | [], cur, _ => cur
  | v :: rest, cur, f => Reduce rest (f cur v) f

/-- The accumulator sequence of the specification of `Reduce`:
`acc 0 = init` and `acc i = f (acc (i-1)) e_i`, where `e_i` is the `i`-th
element of `s` counted from one. -/
def reduceAcc {E : Type u} (s : List E) (init : E) (f : E → E → E) : Nat → E
  | 0 => init
  | i + 1 =>
    match s[i]? with
    | some e => f (reduceAcc s init f i) e
    | none => reduceAcc s init f i

/-! ## The sort functions -/

/-- The `less func(i, j int) bool` argument of `sort.Slice`.  The closures of
main.go read the slice being sorted, so `less` takes the current contents of
that slice first; `none` is the index panic. -/
abbrev LessFunc (E : Type u) := List E → Nat → Nat → Option Bool

/-- The type of `sort.Slice(x, less)`: from the contents of `x` before the call
to its contents after the call, `none` when the call panics. -/
abbrev SliceSorter (E : Type u) := List E → LessFunc E → Option (List E)

/-- The closure `func(i, j int) bool { return result[i] ⋖ result[j] }` for an
element comparison `⋖`. -/
def indexLess {E : Type u} (lt : E → E → Bool) : LessFunc E := fun result i j =>
  match result[i]?, result[j]? with
  | some a, some b => some (lt a b)
  | _, _ => none

/-- Function `AscendingSort` of main.go, lines 33-40: `result := make([]E, len(s))`,
`copy(result, s)`, then `sort.Slice` on `result` with the closure
`result[i] < result[j]`. -/
def AscendingSort {E : Type u} [LT E] [DecidableRel (fun a b : E => a < b)] [Inhabited E]
    (sortSlice : SliceSorter E) (s : List E) : Option (List E) :=
  let result := make E s.length
  let result := copy result s
  sortSlice result (indexLess (fun a b => decide (a < b)))

/-- Function `DescendingSort` of main.go, lines 43-50: as `AscendingSort`, with the
closure `result[i] > result[j]`. -/
def DescendingSort {E : Type u} [LT E] [DecidableRel (fun a b : E => a < b)] [Inhabited E]
    (sortSlice : SliceSorter E) (s : List E) : Option (List E) :=
  let result := make E s.length
  let result := copy result s
  sortSlice result (indexLess (fun a b => decide (a > b)))

/-! ## What the standard library documents about `sort.Slice` -/

/-- The requirement the library puts on `less`: a transitive ordering in which
"neither before the other" is transitive too (a strict weak ordering). -/
structure StrictWeakOrder {E : Type u} (lt : E → E → Bool) : Prop where
  irrefl : ∀ a, lt a a = false
  trans : ∀ a b c, lt a b = true → lt b c = true → lt a c = true
  incomp_trans : ∀ a b c, lt a b = false → lt b c = false → lt a c = false

/-- The contract of `sort.Slice(x, less)` for a closure `less` that compares
the elements at two indices of `x` by a strict weak ordering: the call returns,
the contents of `x` afterwards are a permutation of the contents before, and no
later element must sort before an earlier one.  Nothing is said about the order
of elements that compare equal (the sort need not be stable). -/
def SortSliceContract {E : Type u} (sortSlice : SliceSorter E) : Prop :=
  ∀ lt : E → E → Bool, StrictWeakOrder lt → ∀ x : List E,
    ∃ y, sortSlice x (indexLess lt) = some y ∧ y.Perm x ∧
      y.Pairwise (fun a b => lt b a = false)

/-! ## A sorter that meets the contract -/

/-- The call `data.Swap(i, j)` of the library's `lessSwap`; `none` is the index panic. -/
def swap {E : Type u} (data : List E) (i j : Nat) : Option (List E) :=
  match data[i]?, data[j]? with
  | some a, some b => some ((data.set i b).set j a)
  | _, _ => none

/-- Inner loop of the library's `insertionSortLessFunc`:
`for j := i; j > a && data.Less(j, j-1); j-- { data.Swap(j, j-1) }`;
the counter is `j`. -/
def insertionSortLessFunc.inner {E : Type u} (less : LessFunc E) (a : Nat) :
    Nat → List E → Option (List E)
  | 0, data => some data
  | j + 1, data =>
    if a < j + 1 then
      match less data (j + 1) j with
      | none => none
      | some false => some data
      | some true =>
        match swap data (j + 1) j with
        | none => none
        | some data1 => insertionSortLessFunc.inner less a j data1
    else some data

/-- Outer loop of `insertionSortLessFunc`: `for i := a + 1; i < b; i++`; the
first counter is the number of iterations left, the second is `i`. -/
def insertionSortLessFunc.outer {E : Type u} (less : LessFunc E) (a : Nat) :
    Nat → Nat → List E → Option (List E)
  | 0, _, data => some data
  | n + 1, i, data =>
    match insertionSortLessFunc.inner less a i data with
    | none => none
    | some data1 => insertionSortLessFunc.outer less a n (i + 1) data1

/-- The library's `insertionSortLessFunc(data, a, b)`: sorts `data[a:b]`. -/
def insertionSortLessFunc {E : Type u} (less : LessFunc E) (data : List E) (a b : Nat) :
    Option (List E) :=
  insertionSortLessFunc.outer less a (b - (a + 1)) (a + 1) data

/-- A `sort.Slice` that runs the insertion sort over the whole slice, as the
library does for slices of at most twelve elements. -/
def sortSliceInsertion {E : Type u} : SliceSorter E := fun x less =>
  insertionSortLessFunc less x 0 x.length

/-! ## The functions on an explicit heap -/

/-- The heap: the backing arrays allocated so far; an address is a position. -/
abbrev Heap (E : Type u) := List (List E)

/-- Allocation of a new backing array: the heap grows by one array, whose
address is returned. -/
def Heap.alloc {E : Type u} (h : Heap E) (arr : List E) : Heap E × Nat :=
  (h ++ [arr], h.length)

/-- The contents of the slice at address `p`. -/
def Heap.load {E : Type u} (h : Heap E) (p : Nat) : Option (List E) :=
  h[p]?

/-- Overwrites the contents of the slice at address `p`. -/
def Heap.store {E : Type u} (h : Heap E) (p : Nat) (arr : List E) : Option (Heap E) :=
  if p < h.length then some (h.set p arr) else none

/-- The loop of `Reverse` on the heap: `s` and `result` are addresses, each
iteration reads `s[i]` and appends it to the slice at `result`. -/
def ReverseOnHeap.loop {E : Type u} (s result : Nat) : Nat → Heap E → Option (Heap E)
  | 0, h => some h
  | i + 1, h =>
    match h.load s with
    | none => none
    | some sv =>
      match sv[i]? with
      | none => none
      | some x =>
        match h.load result with
        | none => none
        | some rv =>
          match h.store result (rv ++ [x]) with
          | none => none
          | some h1 => ReverseOnHeap.loop s result i h1

/-- Function `Reverse` on the heap: returns the heap after the call and the address of
the returned slice. -/
def ReverseOnHeap {E : Type u} (h : Heap E) (s : Nat) : Option (Heap E × Nat) :=
  match h.load s with
  | none => none
  | some sv =>
    let (h1, result) := h.alloc []
    match ReverseOnHeap.loop s result sv.length h1 with
    | none => none
    | some h2 => some (h2, result)

/-- The body shared by the two sort functions on the heap, for the element
comparison `lt` of the closure: `make` allocates `result`, `copy` overwrites it
with the contents of `s`, `sort.Slice` sorts the slice at `result` in place. -/
def sortOnHeap {E : Type u} [Inhabited E] (lt : E → E → Bool) (sortSlice : SliceSorter E)
    (h : Heap E) (s : Nat) : Option (Heap E × Nat) :=
  match h.load s with
  | none => none
  | some sv =>
    let (h1, result) := h.alloc (make E sv.length)
    match h1.load result, h1.load s with
    | some rv, some sv1 =>
      match h1.store result (copy rv sv1) with
      | none => none
      | some h2 =>
        match h2.load result with
        | none => none
        | some rv2 =>
          match sortSlice rv2 (indexLess lt) with
          | none => none
          | some sorted =>
            match h2.store result sorted with
            | none => none
            | some h3 => some (h3, result)
    | _, _ => none

/-- Function `AscendingSort` on the heap. -/
def AscendingSortOnHeap {E : Type u} [LT E] [DecidableRel (fun a b : E => a < b)] [Inhabited E]
    (sortSlice : SliceSorter E) (h : Heap E) (s : Nat) : Option (Heap E × Nat) :=
  sortOnHeap (fun a b => decide (a < b)) sortSlice h s

/-- Function `DescendingSort` on the heap. -/
def DescendingSortOnHeap {E : Type u} [LT E] [DecidableRel (fun a b : E => a < b)] [Inhabited E]
    (sortSlice : SliceSorter E) (h : Heap E) (s : Nat) : Option (Heap E × Nat) :=
  sortOnHeap (fun a b => decide (a > b)) sortSlice h s

/-! ## Slices that may be nil -/

/-- A Go slice value together with its nil-ness: `isNil` tells whether the
slice is the nil slice, `elems` are its visible elements. -/
structure GoSlice (E : Type u) where
  isNil : Bool
  elems : List E

/-- The nil slice `[]E(nil)`. -/
def GoSlice.nil {E : Type u} : GoSlice E :=
  { isNil := true, elems := [] }

/-- The composite literal `[]E{...}`: a slice that is not nil, also when it has
no element. -/
def GoSlice.lit {E : Type u} (xs : List E) : GoSlice E :=
  { isNil := false, elems := xs }

/-- Go's `append(s, v)` with one value: the result has an element, so it is
never the nil slice. -/
def GoSlice.append {E : Type u} (s : GoSlice E) (v : E) : GoSlice E :=
  { isNil := false, elems := s.elems ++ [v] }

/-- The loop of `Filter`, main.go lines 64-68, on slices that may be nil. -/
def FilterSlice.loop {E : Type u} (f : E → Bool) : List E → GoSlice E → GoSlice E
  | [], result => result
  | v :: rest, result =>
    if f v then FilterSlice.loop f rest (result.append v) else FilterSlice.loop f rest result

/-- Function `Filter` of main.go, lines 62-70, on slices that may be nil:
`result := []E{}` is the empty literal, the `range` loop runs over the
elements of `s` (none when `s` is nil). -/
def FilterSlice {E : Type u} (s : GoSlice E) (f : E → Bool) : GoSlice E :=
  FilterSlice.loop f s.elems (GoSlice.lit [])

/-! ## Map with a transform that has an effect -/

/-- The loop of `Map`, main.go lines 55-57, for a transform with an effect on a
state of type `σ`: `f x st` is the value of the call `f(x)` in state `st` and the
state after it.  Each iteration reads `s[i]`, calls `f` on it, then assigns
`result[i]`. -/
def MapEff.loop {E : Type u} {F : Type v} {σ : Type} (s : List E) (f : E → σ → F × σ) :
    Nat → Nat → List F → σ → Option (List F × σ)
  | 0, _, result, st => some (result, st)
  | n + 1, i, result, st =>
    match s[i]? with
    | none => none
    | some x =>
      match setIndex result i (f x st).1 with
      | none => none
      | some result1 => MapEff.loop s f n (i + 1) result1 (f x st).2

/-- Function `Map` of main.go, lines 53-59, for a transform with an effect:
returns the result slice and the state after the call. -/
def MapEff {E : Type u} {F : Type v} {σ : Type} [Inhabited F] (s : List E)
    (f : E → σ → F × σ) (st : σ) : Option (List F × σ) :=
  MapEff.loop s f s.length 0 (make F s.length) st

/-- The transform that computes `g` and, as its effect, appends its argument to
a log of the calls made so far. -/
def logging {E : Type} {F : Type v} (g : E → F) : E → List E → F × List E :=
  fun x log => (g x, log ++ [x])

/-! ## An element type whose `==` is not identity -/

/-- The two zeros of a Go `float64`: `+0` and `-0`. -/
inductive SignedZero where
  | pos : SignedZero
  | neg : SignedZero

/-- Go's `==` on the two zeros: `+0 == -0` holds, as every comparison of zeros. -/
def SignedZero.eq : SignedZero → SignedZero → Bool :=
  fun _ _ => true

/-- The predicate `func(x float64) bool { return !math.Signbit(x) }` on the two
zeros. -/
def SignedZero.signClear : SignedZero → Bool
  | SignedZero.pos => true
  | SignedZero.neg => false

/-! ## Comparisons and caller-supplied functions that may panic -/

/-- Function `Contains` of main.go, lines 14-21, for an `==` that may panic:
`eq v vs` is the value of `v == vs`, `none` when the comparison panics (two
interface values whose common dynamic type is not comparable).  The loop
compares `v` with each element in order, returns `true` at the first `true`,
and a panic ends the call. -/
def ContainsChecked {E : Type u} (eq : E → E → Option Bool) : List E → E → Option Bool
  | [], _ => some false
  | vs :: rest, v =>
    match eq v vs with
    | none => none
    | some true => some true
    | some false => ContainsChecked eq rest v

/-- The loop of `Filter`, main.go lines 64-68, for a predicate that may panic:
`f v = none` is a panic of the call `f(v)`, which ends the call of `Filter`. -/
def FilterChecked.loop {E : Type u} (f : E → Option Bool) :
    List E → List E → Option (List E)
  | [], result => some result
  | v :: rest, result =>
    match f v with
    | none => none
    | some true => FilterChecked.loop f rest (result ++ [v])
    | some false => FilterChecked.loop f rest result

/-- Function `Filter` of main.go, lines 62-70, for a predicate that may panic. -/
def FilterChecked {E : Type u} (s : List E) (f : E → Option Bool) : Option (List E) :=
  FilterChecked.loop f s []

/-- Function `Reduce` of main.go, lines 73-79, for a combining function that
may panic: `f cur v = none` is a panic of the call `f(cur, v)`. -/
def ReduceChecked {E : Type u} : List E → E → (E → E → Option E) → Option E
  | [], cur, _ => some cur
  | v :: rest, cur, f =>
    match f cur v with
    | none => none
    | some cur1 => ReduceChecked rest cur1 f

/-- Values of the interface type `any` of two dynamic types: `int`, which is
comparable, and `[]int`, which is not. -/
inductive AnyVal where
  | int : Int → AnyVal
  | ints : List Int → AnyVal

/-- Go's `==` on values of type `any`: two values of dynamic type `int` are
compared as integers, two values of dynamic type `[]int` make the comparison
panic, values of different dynamic types are unequal. -/
def AnyVal.eq : AnyVal → AnyVal → Option Bool
  | AnyVal.int a, AnyVal.int b => some (a == b)
  | AnyVal.ints _, AnyVal.ints _ => none
  | AnyVal.int _, AnyVal.ints _ => some false
  | AnyVal.ints _, AnyVal.int _ => some false

/-- C1. `Contains s v` is true exactly when some element of `s` equals `v`
under `==`; on the empty slice it is false for every `v`. -/
theorem Contains_iff_exists_eq {E : Type u} [BEq E] (s : List E) (v : E) :
    (Contains s v = true ↔ ∃ x ∈ s, (v == x) = true) ∧ Contains ([] : List E) v = false := by
  refine ⟨?_, rfl⟩
  induction s with
  | nil => simp [Contains]
  | cons vs rest ih =>
    by_cases h : (v == vs) = true
    · simp [Contains, h]
    · simp [Contains, h, ih]

theorem Contains_eq_true_iff {E : Type u} [BEq E] (s : List E) (v : E) :
    Contains s v = true ↔ ∃ x ∈ s, (v == x) = true := by
  induction s with
  | nil => simp [Contains]
  | cons vs rest ih =>
    by_cases h : (v == vs) = true
    · simp [Contains, h]
    · simp [Contains, h, ih]

theorem Contains_iff_mem {E : Type u} [BEq E] [LawfulBEq E] (s : List E) (v : E) :
    Contains s v = true ↔ v ∈ s := by
  induction s with
  | nil => simp [Contains]
  | cons vs rest ih =>
    by_cases h : v = vs
    · simp [Contains, h]
    · simp [Contains, h, ih]

/-! ## Reverse: properties -/

theorem Reverse.loop_reverse_take {E : Type u} (s : List E) :
    ∀ (k : Nat) (result : List E), k ≤ s.length →
      Reverse.loop s k result = some (result ++ (s.take k).reverse)
  | 0, result, _ => by simp [Reverse.loop]
  | k + 1, result, hk => by
    have hlt : k < s.length := hk
    have hget : s[k]? = some s[k] := List.getElem?_eq_getElem hlt
    have htake : s.take (k + 1) = s.take k ++ [s[k]] := by
      rw [List.take_succ, hget]; rfl
    simp only [Reverse.loop, hget]
    rw [Reverse.loop_reverse_take s k _ (Nat.le_of_lt hlt), htake, List.reverse_append,
      List.append_assoc]
    rfl

theorem Reverse_eq_reverse {E : Type u} (s : List E) : Reverse s = some s.reverse := by
  unfold Reverse
  rw [Reverse.loop_reverse_take s s.length [] (Nat.le_refl _)]
  simp

/-! ## Map, Filter, Reduce: properties -/

theorem Map.loop_map_drop {E : Type u} {F : Type v} (s : List E) (f : E → F) :
    ∀ (n i : Nat) (result : List F), i + n = s.length → result.length = s.length →
      Map.loop s f n i result = some (result.take i ++ (s.drop i).map f)
  | 0, i, result, hi, hlen => by
    have h1 : s.drop i = [] := List.drop_eq_nil_of_le (by omega)
    have h2 : result.take i = result := List.take_of_length_le (by omega)
    simp [Map.loop, h1, h2]
  | n + 1, i, result, hi, hlen => by
    have hlt : i < s.length := by omega
    have hget : s[i]? = some s[i] := List.getElem?_eq_getElem hlt
    have hset : setIndex result i (f s[i]) = some (result.set i (f s[i])) := by
      simp [setIndex, hlen, hlt]
    have hdrop : s.drop i = s[i] :: s.drop (i + 1) := List.drop_eq_getElem_cons hlt
    simp only [Map.loop, hget, hset]
    rw [Map.loop_map_drop s f n (i + 1) _ (by omega) (by simpa using hlen), hdrop]
    have htake : (result.set i (f s[i])).take (i + 1) = result.take i ++ [f s[i]] := by
      rw [List.take_succ, List.set_take,
        List.set_eq_of_length_le (by rw [List.length_take]; exact Nat.min_le_left _ _)]
      simp [hlen, hlt]
    rw [htake, List.map_cons, List.append_assoc]
    rfl

theorem Map_eq_map {E : Type u} {F : Type v} [Inhabited F] (s : List E) (f : E → F) :
    Map s f = some (s.map f) := by
  unfold Map
  rw [Map.loop_map_drop s f s.length 0 _ (by simp) (by simp [make])]
  simp

theorem Filter.loop_append_filter {E : Type u} (f : E → Bool) :
    ∀ (s result : List E), Filter.loop f s result = result ++ s.filter f
  | [], result => by simp [Filter.loop]
  | v :: rest, result => by
    by_cases h : f v = true
    · simp [Filter.loop, h, Filter.loop_append_filter f rest]
    · simp [Filter.loop, h, Filter.loop_append_filter f rest]

theorem Filter_eq_filter {E : Type u} (s : List E) (f : E → Bool) :
    Filter s f = s.filter f := by
  simp [Filter, Filter.loop_append_filter]

theorem Reduce_eq_foldl {E : Type u} (f : E → E → E) :
    ∀ (s : List E) (cur : E), Reduce s cur f = s.foldl f cur
  | [], cur => rfl
  | v :: rest, cur => by simp [Reduce, Reduce_eq_foldl f rest]

theorem reduceAcc_eq_foldl_take {E : Type u} (s : List E) (init : E) (f : E → E → E) :
    ∀ i : Nat, reduceAcc s init f i = (s.take i).foldl f init
  | 0 => by simp [reduceAcc]
  | i + 1 => by
    rw [reduceAcc, reduceAcc_eq_foldl_take s init f i, List.take_succ]
    cases h : s[i]? with
    | none => simp
    | some e => simp

/-! ## The insertion sorter meets the contract of `sort.Slice` -/

theorem StrictWeakOrder.asymm {E : Type u} {lt : E → E → Bool} (hlt : StrictWeakOrder lt)
    {a b : E} (hab : lt a b = true) : lt b a = false := by
  cases hba : lt b a with
  | false => rfl
  | true =>
    have haa := hlt.trans a b a hab hba
    rw [hlt.irrefl a] at haa
    exact absurd haa (by decide)

theorem indexLess_adjacent {E : Type u} (lt : E → E → Bool) (P S : List E) (p x : E) :
    indexLess lt (P ++ p :: x :: S) (P.length + 1) P.length = some (lt x p) := by
  have h1 : (P ++ p :: x :: S)[P.length + 1]? = some x := by
    rw [List.getElem?_append_right (Nat.le_succ _)]
    simp
  have h0 : (P ++ p :: x :: S)[P.length]? = some p := by
    rw [List.getElem?_append_right (Nat.le_refl _)]
    simp
  simp only [indexLess, h1, h0]

theorem swap_adjacent {E : Type u} (P S : List E) (p x : E) :
    swap (P ++ p :: x :: S) (P.length + 1) P.length = some (P ++ x :: p :: S) := by
  have h1 : (P ++ p :: x :: S)[P.length + 1]? = some x := by
    rw [List.getElem?_append_right (Nat.le_succ _)]
    simp
  have h0 : (P ++ p :: x :: S)[P.length]? = some p := by
    rw [List.getElem?_append_right (Nat.le_refl _)]
    simp
  simp only [swap, h1, h0]
  rw [List.set_append_right _ _ (Nat.le_succ _), List.set_append_right _ _ (Nat.le_refl _)]
  simp

theorem insertionSortLessFunc.inner_spec {E : Type u} {lt : E → E → Bool}
    (hlt : StrictWeakOrder lt) :
    ∀ (j : Nat) (P : List E) (x : E) (S : List E), P.length = j →
      P.Pairwise (fun a b => lt b a = false) →
      ∃ P1 P2, P = P1 ++ P2 ∧
        insertionSortLessFunc.inner (indexLess lt) 0 j (P ++ x :: S)
          = some (P1 ++ x :: (P2 ++ S)) ∧
        (∀ a ∈ P1, lt x a = false) ∧ (∀ b ∈ P2, lt x b = true)
  | 0, P, x, S, hlen, _ => by
    have hP : P = [] := List.length_eq_zero.mp hlen
    subst hP
    exact ⟨[], [], rfl, by simp [insertionSortLessFunc.inner], by simp, by simp⟩
  | j + 1, P, x, S, hlen, hsorted => by
    have hne : P ≠ [] := by
      intro h; rw [h] at hlen; simp at hlen
    obtain ⟨Q, p, hQ⟩ : ∃ Q p, P = Q ++ [p] :=
      ⟨P.dropLast, P.getLast hne, (List.dropLast_append_getLast hne).symm⟩
    subst hQ
    have hQlen : Q.length = j := by simpa using hlen
    subst hQlen
    rw [List.pairwise_append] at hsorted
    obtain ⟨hQsorted, _, hQp⟩ := hsorted
    have hdata : Q ++ [p] ++ x :: S = Q ++ p :: x :: S := by simp
    cases hxp : lt x p with
    | false =>
      refine ⟨Q ++ [p], [], by simp, ?_, ?_, by simp⟩
      · rw [hdata]
        simp [insertionSortLessFunc.inner, indexLess_adjacent, hxp]
      · intro a ha
        rcases List.mem_append.mp ha with ha | ha
        · exact hlt.incomp_trans x p a hxp (hQp a ha p (by simp))
        · have : a = p := by simpa using ha
          rw [this]; exact hxp
    | true =>
      obtain ⟨P1, P2, hsplit, hrun, h1, h2⟩ :=
        insertionSortLessFunc.inner_spec hlt Q.length Q x (p :: S) rfl hQsorted
      refine ⟨P1, P2 ++ [p], by rw [hsplit]; simp, ?_, h1, ?_⟩
      · rw [hdata]
        simp only [insertionSortLessFunc.inner, indexLess_adjacent, hxp, swap_adjacent,
          Nat.zero_lt_succ, if_true]
        rw [hrun]
        simp
      · intro b hb
        rcases List.mem_append.mp hb with hb | hb
        · exact h2 b hb
        · have : b = p := by simpa using hb
          rw [this]; exact hxp

theorem insertionSortLessFunc.outer_spec {E : Type u} {lt : E → E → Bool}
    (hlt : StrictWeakOrder lt) :
    ∀ (n i : Nat) (A B : List E), A.length = i → B.length = n →
      A.Pairwise (fun a b => lt b a = false) →
      ∃ y, insertionSortLessFunc.outer (indexLess lt) 0 n i (A ++ B) = some y ∧
        y.Perm (A ++ B) ∧ y.Pairwise (fun a b => lt b a = false)
  | 0, i, A, B, _, hB, hsorted => by
    have hnil : B = [] := List.length_eq_zero.mp hB
    subst hnil
    exact ⟨A, by simp [insertionSortLessFunc.outer], by simp, hsorted⟩
  | n + 1, i, A, B, hA, hB, hsorted => by
    cases B with
    | nil => simp at hB
    | cons x B1 =>
      obtain ⟨P1, P2, hsplit, hrun, h1, h2⟩ :=
        insertionSortLessFunc.inner_spec hlt i A x B1 hA hsorted
      have hsorted1 : (P1 ++ x :: P2).Pairwise (fun a b => lt b a = false) := by
        rw [hsplit, List.pairwise_append] at hsorted
        obtain ⟨hP1, hP2, hP12⟩ := hsorted
        rw [List.pairwise_append]
        refine ⟨hP1, ?_, ?_⟩
        · rw [List.pairwise_cons]
          exact ⟨fun b hb => hlt.asymm (h2 b hb), hP2⟩
        · intro a ha b hb
          rcases List.mem_cons.mp hb with hb | hb
          · rw [hb]; exact h1 a ha
          · exact hP12 a ha b hb
      obtain ⟨y, hy, hperm, hysorted⟩ :=
        insertionSortLessFunc.outer_spec hlt n (i + 1) (P1 ++ x :: P2) B1
          (by rw [← hA, hsplit]; simp; omega) (by simpa using hB) hsorted1
      refine ⟨y, ?_, ?_, hysorted⟩
      · simp only [insertionSortLessFunc.outer, hrun]
        rw [← hy]; simp
      · refine hperm.trans ?_
        rw [hsplit]
        simp only [List.append_assoc, List.cons_append]
        exact List.Perm.append_left P1 List.perm_middle.symm

theorem sortSliceInsertion_contract {E : Type u} :
    SortSliceContract (sortSliceInsertion : SliceSorter E) := by
  intro lt hlt x
  cases x with
  | nil =>
    exact ⟨[], by simp [sortSliceInsertion, insertionSortLessFunc, insertionSortLessFunc.outer],
      List.Perm.refl _, List.Pairwise.nil⟩
  | cons a B =>
    obtain ⟨y, hy, hperm, hsorted⟩ :=
      insertionSortLessFunc.outer_spec hlt B.length 1 [a] B rfl rfl (by simp)
    exact ⟨y, by simpa [sortSliceInsertion, insertionSortLessFunc] using hy, hperm, hsorted⟩

/-! ## The sort functions: properties -/

theorem strictWeakOrder_lt {E : Type u} [LinearOrder E] :
    StrictWeakOrder (fun a b : E => decide (a < b)) where
  irrefl := fun a => by simp
  trans := fun a b c hab hbc => by
    simp only [decide_eq_true_eq] at hab hbc ⊢
    exact lt_trans hab hbc
  incomp_trans := fun a b c hab hbc => by
    simp only [decide_eq_false_iff_not, not_lt] at hab hbc ⊢
    exact le_trans hbc hab

theorem strictWeakOrder_gt {E : Type u} [LinearOrder E] :
    StrictWeakOrder (fun a b : E => decide (a > b)) where
  irrefl := fun a => by simp
  trans := fun a b c hab hbc => by
    simp only [gt_iff_lt, decide_eq_true_eq] at hab hbc ⊢
    exact lt_trans hbc hab
  incomp_trans := fun a b c hab hbc => by
    simp only [gt_iff_lt, decide_eq_false_iff_not, not_lt] at hab hbc ⊢
    exact le_trans hab hbc

theorem copy_make {E : Type u} [Inhabited E] (s : List E) :
    copy (make E s.length) s = s := by
  simp [copy, make]

theorem AscendingSort_spec {E : Type u} [LinearOrder E] [Inhabited E]
    (sortSlice : SliceSorter E) (hsort : SortSliceContract sortSlice) (s : List E) :
    ∃ r, AscendingSort sortSlice s = some r ∧ r.Perm s ∧ r.Pairwise (fun a b => a ≤ b) := by
  obtain ⟨y, hy, hperm, hsorted⟩ := hsort _ strictWeakOrder_lt s
  refine ⟨y, ?_, hperm, hsorted.imp ?_⟩
  · simp only [AscendingSort, copy_make]
    exact hy
  · intro a b hab
    simpa using hab

theorem DescendingSort_spec {E : Type u} [LinearOrder E] [Inhabited E]
    (sortSlice : SliceSorter E) (hsort : SortSliceContract sortSlice) (s : List E) :
    ∃ r, DescendingSort sortSlice s = some r ∧ r.Perm s ∧ r.Pairwise (fun a b => a ≥ b) := by
  obtain ⟨y, hy, hperm, hsorted⟩ := hsort _ strictWeakOrder_gt s
  refine ⟨y, ?_, hperm, hsorted.imp ?_⟩
  · simp only [DescendingSort, copy_make]
    exact hy
  · intro a b hab
    simpa using hab

theorem adjacent_of_pairwise {E : Type u} {R : E → E → Prop} {r : List E}
    (hr : r.Pairwise R) (i : Nat) (a b : E) (ha : r[i]? = some a) (hb : r[i + 1]? = some b) :
    R a b := by
  obtain ⟨hi, rfl⟩ := List.getElem?_eq_some.mp ha
  obtain ⟨hj, rfl⟩ := List.getElem?_eq_some.mp hb
  exact List.pairwise_iff_getElem.mp hr i (i + 1) hi hj (Nat.lt_succ_self i)

/-- C2. Given a `sort.Slice` that meets its contract, `AscendingSort s` returns
a permutation of `s` in which every adjacent pair has earlier `≤` later. -/
theorem AscendingSort_perm_nondecreasing {E : Type u} [LinearOrder E] [Inhabited E]
    (sortSlice : SliceSorter E) (hsort : SortSliceContract sortSlice) (s : List E) :
    ∃ r, AscendingSort sortSlice s = some r ∧ r.Perm s ∧
      ∀ (i : Nat) (a b : E), r[i]? = some a → r[i + 1]? = some b → a ≤ b := by
  obtain ⟨r, hr, hperm, hsorted⟩ := AscendingSort_spec sortSlice hsort s
  exact ⟨r, hr, hperm, fun i a b ha hb => adjacent_of_pairwise hsorted i a b ha hb⟩

/-- Witness of C2 on `[3, 1, 2]` with the insertion sorter. -/
theorem AscendingSort_perm_nondecreasing_witness :
    SortSliceContract (sortSliceInsertion : SliceSorter Int) ∧
    ∃ r, AscendingSort sortSliceInsertion [(3 : Int), 1, 2] = some r ∧ r.Perm [3, 1, 2] ∧
      ∀ (i : Nat) (a b : Int), r[i]? = some a → r[i + 1]? = some b → a ≤ b :=
  ⟨sortSliceInsertion_contract,
    AscendingSort_perm_nondecreasing sortSliceInsertion sortSliceInsertion_contract [3, 1, 2]⟩

/-- C3. Given a `sort.Slice` that meets its contract, `DescendingSort s` returns
a permutation of `s` in which every adjacent pair has earlier `≥` later. -/
theorem DescendingSort_perm_nonincreasing {E : Type u} [LinearOrder E] [Inhabited E]
    (sortSlice : SliceSorter E) (hsort : SortSliceContract sortSlice) (s : List E) :
    ∃ r, DescendingSort sortSlice s = some r ∧ r.Perm s ∧
      ∀ (i : Nat) (a b : E), r[i]? = some a → r[i + 1]? = some b → a ≥ b := by
  obtain ⟨r, hr, hperm, hsorted⟩ := DescendingSort_spec sortSlice hsort s
  exact ⟨r, hr, hperm, fun i a b ha hb => adjacent_of_pairwise hsorted i a b ha hb⟩

/-- Witness of C3 on `[3, 1, 2]` with the insertion sorter. -/
theorem DescendingSort_perm_nonincreasing_witness :
    SortSliceContract (sortSliceInsertion : SliceSorter Int) ∧
    ∃ r, DescendingSort sortSliceInsertion [(3 : Int), 1, 2] = some r ∧ r.Perm [3, 1, 2] ∧
      ∀ (i : Nat) (a b : Int), r[i]? = some a → r[i + 1]? = some b → a ≥ b :=
  ⟨sortSliceInsertion_contract,
    DescendingSort_perm_nonincreasing sortSliceInsertion sortSliceInsertion_contract [3, 1, 2]⟩

theorem ascending_eq_reverse_descending {E : Type u} [LinearOrder E] [Inhabited E]
    (sortSlice : SliceSorter E) (hsort : SortSliceContract sortSlice) (s : List E) :
    ∃ a d, AscendingSort sortSlice s = some a ∧ DescendingSort sortSlice s = some d ∧
      Reverse d = some a := by
  obtain ⟨a, ha, hpa, hsa⟩ := AscendingSort_spec sortSlice hsort s
  obtain ⟨d, hd, hpd, hsd⟩ := DescendingSort_spec sortSlice hsort s
  refine ⟨a, d, ha, hd, ?_⟩
  rw [Reverse_eq_reverse]
  have hrev : d.reverse.Pairwise (fun a b => a ≤ b) := by
    rw [List.pairwise_reverse]
    exact hsd
  have hperm : d.reverse.Perm a := (List.reverse_perm d).trans (hpd.trans hpa.symm)
  exact congrArg some (List.eq_of_perm_of_sorted hperm hrev hsa)

/-- C4. Given a `sort.Slice` that meets its contract, for a slice `s` without
duplicate elements `AscendingSort s` equals `Reverse (DescendingSort s)`. -/
theorem AscendingSort_eq_Reverse_DescendingSort_of_nodup {E : Type u} [LinearOrder E]
    [Inhabited E] (sortSlice : SliceSorter E) (hsort : SortSliceContract sortSlice)
    (s : List E) (_hnodup : s.Nodup) :
    ∃ a d, AscendingSort sortSlice s = some a ∧ DescendingSort sortSlice s = some d ∧
      Reverse d = some a :=
  ascending_eq_reverse_descending sortSlice hsort s

/-- Witness of C4 on the duplicate-free `[3, 1, 2]` with the insertion sorter. -/
theorem AscendingSort_eq_Reverse_DescendingSort_of_nodup_witness :
    SortSliceContract (sortSliceInsertion : SliceSorter Int) ∧ [(3 : Int), 1, 2].Nodup ∧
    ∃ a d, AscendingSort sortSliceInsertion [(3 : Int), 1, 2] = some a ∧
      DescendingSort sortSliceInsertion [(3 : Int), 1, 2] = some d ∧ Reverse d = some a :=
  ⟨sortSliceInsertion_contract, by decide,
    AscendingSort_eq_Reverse_DescendingSort_of_nodup sortSliceInsertion
      sortSliceInsertion_contract [3, 1, 2] (by decide)⟩

/-- C5. `Reverse s` returns a slice of the length `n` of `s` whose element at
index `i < n` is `s[n-1-i]`; on the empty slice it returns the empty slice. -/
theorem Reverse_length_index {E : Type u} (s : List E) :
    (∃ r, Reverse s = some r ∧ r.length = s.length ∧
      ∀ (i : Nat) (h : i < s.length), r[i]? = some (s[s.length - 1 - i])) ∧
    Reverse ([] : List E) = some [] := by
  refine ⟨⟨s.reverse, Reverse_eq_reverse s, List.length_reverse s, ?_⟩, rfl⟩
  intro i h
  rw [List.getElem?_eq_getElem (by simpa using h), List.getElem_reverse]

/-- C6. `Reverse` is an involution and keeps the length: `Reverse s` returns a
slice `r` with `Reverse r = s` and `len r = len s`. -/
theorem Reverse_involution {E : Type u} (s : List E) :
    ∃ r, Reverse s = some r ∧ Reverse r = some s ∧ r.length = s.length :=
  ⟨s.reverse, Reverse_eq_reverse s, by rw [Reverse_eq_reverse, List.reverse_reverse],
    List.length_reverse s⟩

/-- C7. `Map s f` returns a slice of the length of `s` whose element at every
index `i < len s` is `f (s[i])`. -/
theorem Map_length_index {E : Type u} {F : Type v} [Inhabited F] (s : List E) (f : E → F) :
    ∃ r, Map s f = some r ∧ r.length = s.length ∧
      ∀ (i : Nat) (h : i < s.length), r[i]? = some (f s[i]) := by
  refine ⟨s.map f, Map_eq_map s f, List.length_map s f, ?_⟩
  intro i h
  simp [List.getElem?_eq_getElem h]

/-- C8. `Filter s p` is the subsequence of `s` of exactly the elements on which
`p` is true: it is `s` with the other elements dropped, in the same relative
order and with the same multiplicities; each of its elements satisfies `p`, no
element of `s` that satisfies `p` is missing, and it is no longer than `s`. -/
theorem Filter_exact_subsequence {E : Type u} (s : List E) (p : E → Bool) :
    Filter s p = s.filter p ∧ (Filter s p).Sublist s ∧
    (∀ q : E → Bool, (Filter s p).countP q = s.countP (fun x => p x && q x)) ∧
    (∀ x ∈ Filter s p, p x = true) ∧ (∀ x ∈ s, p x = true → x ∈ Filter s p) ∧
    (Filter s p).length ≤ s.length := by
  rw [Filter_eq_filter]
  refine ⟨rfl, List.filter_sublist s, ?_, ?_, ?_, List.length_filter_le p s⟩
  · intro q
    rw [List.countP_filter]
    congr 1
    funext x
    exact Bool.and_comm _ _
  · intro x hx
    exact (List.mem_filter.mp hx).2
  · intro x hx hp
    exact List.mem_filter.mpr ⟨hx, hp⟩

/-- C9. `Reduce s init f` is the last accumulator `acc n` of the left fold
`acc 0 = init`, `acc i = f (acc (i-1)) e_i` over the `n` elements of `s`; on the
empty slice it is `init` and on `[a]` it is `f init a`. -/
theorem Reduce_left_fold {E : Type u} (s : List E) (init : E) (f : E → E → E) (a : E) :
    Reduce s init f = reduceAcc s init f s.length ∧
    Reduce [] init f = init ∧ Reduce [a] init f = f init a := by
  refine ⟨?_, rfl, rfl⟩
  rw [Reduce_eq_foldl, reduceAcc_eq_foldl_take, List.take_length]

/-! ## The heap: the input of a call is not modified -/

theorem Heap.load_alloc_old {E : Type u} (h : Heap E) (arr : List E) (p : Nat)
    (hp : p < h.length) : Heap.load (h ++ [arr]) p = Heap.load h p := by
  simp [Heap.load, List.getElem?_append_left hp]

theorem Heap.load_alloc_new {E : Type u} (h : Heap E) (arr : List E) :
    Heap.load (h ++ [arr]) h.length = some arr := by
  simp [Heap.load]

theorem Heap.store_alloc_new {E : Type u} (h : Heap E) (arr arr1 : List E) :
    Heap.store (h ++ [arr]) h.length arr1 = some (h ++ [arr1]) := by
  simp [Heap.store]

theorem ReverseOnHeap.loop_heap_eq {E : Type u} (h : Heap E) (s : Nat) (sv : List E)
    (hs : Heap.load h s = some sv) :
    ∀ (k : Nat) (rv : List E), k ≤ sv.length →
      ReverseOnHeap.loop s h.length k (h ++ [rv])
        = some (h ++ [rv ++ (sv.take k).reverse])
  | 0, rv, _ => by simp [ReverseOnHeap.loop]
  | k + 1, rv, hk => by
    have hslt : s < h.length := by
      unfold Heap.load at hs
      exact (List.getElem?_eq_some.mp hs).1
    have hlt : k < sv.length := hk
    have hget : sv[k]? = some sv[k] := List.getElem?_eq_getElem hlt
    have htake : sv.take (k + 1) = sv.take k ++ [sv[k]] := by
      rw [List.take_succ, hget]; rfl
    simp only [ReverseOnHeap.loop, Heap.load_alloc_old h rv s hslt, hs, hget,
      Heap.load_alloc_new, Heap.store_alloc_new]
    rw [ReverseOnHeap.loop_heap_eq h s sv hs k _ (Nat.le_of_lt hlt), htake, List.reverse_append,
      List.append_assoc]
    rfl

theorem ReverseOnHeap_eq {E : Type u} (h : Heap E) (s : Nat) (sv : List E)
    (hs : Heap.load h s = some sv) :
    ReverseOnHeap h s = some (h ++ [sv.reverse], h.length) := by
  simp only [ReverseOnHeap, hs, Heap.alloc]
  rw [ReverseOnHeap.loop_heap_eq h s sv hs sv.length [] (Nat.le_refl _)]
  simp

theorem sortOnHeap_eq {E : Type u} [Inhabited E] (lt : E → E → Bool)
    (sortSlice : SliceSorter E) (h : Heap E) (s : Nat) (sv sorted : List E)
    (hs : Heap.load h s = some sv) (hsorted : sortSlice sv (indexLess lt) = some sorted) :
    sortOnHeap lt sortSlice h s = some (h ++ [sorted], h.length) := by
  have hslt : s < h.length := by
    unfold Heap.load at hs
    exact (List.getElem?_eq_some.mp hs).1
  simp only [sortOnHeap, hs, Heap.alloc, Heap.load_alloc_old h _ s hslt, Heap.load_alloc_new,
    Heap.store_alloc_new, copy_make, hsorted]

/-- C10. On the heap, a call of `Reverse`, `AscendingSort` or `DescendingSort`
on the slice at address `s` returns and leaves every slice that existed before
the call, the input `s` among them, with the contents it had; the result is a
new slice holding what the function computes from the contents of `s`. -/
theorem input_not_modified {E : Type u} [LinearOrder E] [Inhabited E]
    (sortSlice : SliceSorter E) (hsort : SortSliceContract sortSlice)
    (h : Heap E) (s : Nat) (sv : List E) (hs : Heap.load h s = some sv) :
    (∃ h1 r, ReverseOnHeap h s = some (h1, r) ∧ Heap.load h1 s = some sv ∧
      (∀ p, p < h.length → Heap.load h1 p = Heap.load h p) ∧
      Heap.load h1 r = Reverse sv) ∧
    (∃ h1 r, AscendingSortOnHeap sortSlice h s = some (h1, r) ∧ Heap.load h1 s = some sv ∧
      (∀ p, p < h.length → Heap.load h1 p = Heap.load h p) ∧
      Heap.load h1 r = AscendingSort sortSlice sv) ∧
    (∃ h1 r, DescendingSortOnHeap sortSlice h s = some (h1, r) ∧ Heap.load h1 s = some sv ∧
      (∀ p, p < h.length → Heap.load h1 p = Heap.load h p) ∧
      Heap.load h1 r = DescendingSort sortSlice sv) := by
  have hslt : s < h.length := by
    unfold Heap.load at hs
    exact (List.getElem?_eq_some.mp hs).1
  obtain ⟨a, ha, -, -⟩ := AscendingSort_spec sortSlice hsort sv
  obtain ⟨d, hd, -, -⟩ := DescendingSort_spec sortSlice hsort sv
  have ha1 : sortSlice sv (indexLess (fun x y : E => decide (x < y))) = some a := by
    simpa only [AscendingSort, copy_make] using ha
  have hd1 : sortSlice sv (indexLess (fun x y : E => decide (x > y))) = some d := by
    simpa only [DescendingSort, copy_make] using hd
  refine ⟨⟨_, _, ReverseOnHeap_eq h s sv hs, ?_, ?_, ?_⟩,
    ⟨_, _, sortOnHeap_eq _ sortSlice h s sv a hs ha1, ?_, ?_, ?_⟩,
    ⟨_, _, sortOnHeap_eq _ sortSlice h s sv d hs hd1, ?_, ?_, ?_⟩⟩
  · rw [Heap.load_alloc_old h _ s hslt, hs]
  · exact fun p hp => Heap.load_alloc_old h _ p hp
  · rw [Heap.load_alloc_new, Reverse_eq_reverse]
  · rw [Heap.load_alloc_old h _ s hslt, hs]
  · exact fun p hp => Heap.load_alloc_old h _ p hp
  · rw [Heap.load_alloc_new, ha]
  · rw [Heap.load_alloc_old h _ s hslt, hs]
  · exact fun p hp => Heap.load_alloc_old h _ p hp
  · rw [Heap.load_alloc_new, hd]

/-- Witness of C10 on the heap holding the one slice `[3, 1, 2]`. -/
theorem input_not_modified_witness :
    SortSliceContract (sortSliceInsertion : SliceSorter Int) ∧
    Heap.load [[(3 : Int), 1, 2]] 0 = some [3, 1, 2] ∧
    (∃ h1 r, ReverseOnHeap [[(3 : Int), 1, 2]] 0 = some (h1, r) ∧
      Heap.load h1 0 = some [3, 1, 2] ∧
      (∀ p, p < [[(3 : Int), 1, 2]].length → Heap.load h1 p = Heap.load [[(3 : Int), 1, 2]] p) ∧
      Heap.load h1 r = Reverse [3, 1, 2]) ∧
    (∃ h1 r, AscendingSortOnHeap sortSliceInsertion [[(3 : Int), 1, 2]] 0 = some (h1, r) ∧
      Heap.load h1 0 = some [3, 1, 2] ∧
      (∀ p, p < [[(3 : Int), 1, 2]].length → Heap.load h1 p = Heap.load [[(3 : Int), 1, 2]] p) ∧
      Heap.load h1 r = AscendingSort sortSliceInsertion [3, 1, 2]) ∧
    (∃ h1 r, DescendingSortOnHeap sortSliceInsertion [[(3 : Int), 1, 2]] 0 = some (h1, r) ∧
      Heap.load h1 0 = some [3, 1, 2] ∧
      (∀ p, p < [[(3 : Int), 1, 2]].length → Heap.load h1 p = Heap.load [[(3 : Int), 1, 2]] p) ∧
      Heap.load h1 r = DescendingSort sortSliceInsertion [3, 1, 2]) :=
  ⟨sortSliceInsertion_contract, rfl,
    input_not_modified sortSliceInsertion sortSliceInsertion_contract [[3, 1, 2]] 0 [3, 1, 2] rfl⟩

/-! ## The sort functions: the result is determined by the elements -/

theorem pairwise_of_adjacent {E : Type u} {R : E → E → Prop}
    (htrans : ∀ a b c, R a b → R b c → R a c) :
    ∀ r : List E, (∀ (i : Nat) (a b : E), r[i]? = some a → r[i + 1]? = some b → R a b) →
      r.Pairwise R
  | [], _ => List.Pairwise.nil
  | x :: rest, hadj => by
    have hrest : rest.Pairwise R :=
      pairwise_of_adjacent htrans rest (fun i a b ha hb =>
        hadj (i + 1) a b (by simpa using ha) (by simpa using hb))
    refine List.Pairwise.cons ?_ hrest
    cases rest with
    | nil => intro y hy; simp at hy
    | cons y0 rest1 =>
      have h0 : R x y0 := hadj 0 x y0 (by simp) (by simp)
      intro y hy
      rcases List.mem_cons.mp hy with hy | hy
      · rw [hy]; exact h0
      · exact htrans x y0 y h0 ((List.pairwise_cons.mp hrest).1 y hy)

theorem AscendingSort_unique {E : Type u} [LinearOrder E] [Inhabited E]
    (sortSlice : SliceSorter E) (hsort : SortSliceContract sortSlice) (s r : List E)
    (hperm : r.Perm s) (hsorted : r.Pairwise (fun a b => a ≤ b)) :
    AscendingSort sortSlice s = some r := by
  obtain ⟨a, ha, hpa, hsa⟩ := AscendingSort_spec sortSlice hsort s
  rw [ha, List.eq_of_perm_of_sorted (hpa.trans hperm.symm) hsa hsorted]

theorem DescendingSort_unique {E : Type u} [LinearOrder E] [Inhabited E]
    (sortSlice : SliceSorter E) (hsort : SortSliceContract sortSlice) (s r : List E)
    (hperm : r.Perm s) (hsorted : r.Pairwise (fun a b => a ≥ b)) :
    DescendingSort sortSlice s = some r := by
  obtain ⟨d, hd, hpd, hsd⟩ := DescendingSort_spec sortSlice hsort s
  rw [hd, List.eq_of_perm_of_sorted (hpd.trans hperm.symm) hsd hsorted]

/-- C11, counterexample. On `[3, 1, 2]` the insertion sorter makes
`DescendingSort` return `[3, 2, 1]`, whose first adjacent pair `3, 2` is not in
ascending order. -/
theorem DescendingSort_ascending_counterexample :
    ∃ r, DescendingSort sortSliceInsertion [(3 : Int), 1, 2] = some r ∧ r = [3, 2, 1] ∧
      ∃ (i : Nat) (a b : Int), r[i]? = some a ∧ r[i + 1]? = some b ∧ ¬ a ≤ b :=
  ⟨[3, 2, 1], by decide, rfl, 0, 3, 2, rfl, rfl, by decide⟩

/-- C11, amended. Given a `sort.Slice` that meets its contract, the result of
`DescendingSort s` is in descending order: every earlier element is `≥` every
later one.  It is in ascending order exactly when all elements of `s` are
equal. -/
theorem DescendingSort_descending_all_pairs {E : Type u} [LinearOrder E] [Inhabited E]
    (sortSlice : SliceSorter E) (hsort : SortSliceContract sortSlice) (s : List E) :
    ∃ r, DescendingSort sortSlice s = some r ∧ r.Pairwise (fun a b => a ≥ b) ∧
      ((∀ (i : Nat) (a b : E), r[i]? = some a → r[i + 1]? = some b → a ≤ b) ↔
        ∀ x ∈ s, ∀ y ∈ s, x = y) := by
  obtain ⟨r, hr, hperm, hsorted⟩ := DescendingSort_spec sortSlice hsort s
  refine ⟨r, hr, hsorted, ?_, ?_⟩
  · intro hadj
    have hasc : r.Pairwise (fun a b => a ≤ b) :=
      pairwise_of_adjacent (R := fun a b : E => a ≤ b) (fun _ _ _ hab hbc => le_trans hab hbc)
        r hadj
    have heq : r.Pairwise (fun a b => a = b) :=
      (hsorted.and hasc).imp (fun h => le_antisymm h.2 h.1)
    intro x hx y hy
    exact heq.forall_of_forall (fun _ _ h => h.symm) (fun _ _ => rfl)
      (hperm.mem_iff.mpr hx) (hperm.mem_iff.mpr hy)
  · intro hall i a b ha hb
    have hma : a ∈ r := List.mem_iff_getElem?.mpr ⟨i, ha⟩
    have hmb : b ∈ r := List.mem_iff_getElem?.mpr ⟨i + 1, hb⟩
    exact le_of_eq (hall a (hperm.mem_iff.mp hma) b (hperm.mem_iff.mp hmb))

/-- Witness of the amended C11 on `[3, 1, 2]` with the insertion sorter. -/
theorem DescendingSort_descending_all_pairs_witness :
    SortSliceContract (sortSliceInsertion : SliceSorter Int) ∧
    ∃ r, DescendingSort sortSliceInsertion [(3 : Int), 1, 2] = some r ∧
      r.Pairwise (fun a b => a ≥ b) ∧
      ((∀ (i : Nat) (a b : Int), r[i]? = some a → r[i + 1]? = some b → a ≤ b) ↔
        ∀ x ∈ [(3 : Int), 1, 2], ∀ y ∈ [(3 : Int), 1, 2], x = y) :=
  ⟨sortSliceInsertion_contract,
    DescendingSort_descending_all_pairs sortSliceInsertion sortSliceInsertion_contract
      [3, 1, 2]⟩

/-- C13. Given a `sort.Slice` that meets its contract, on a slice `s` with at
most one element `AscendingSort s` and `DescendingSort s` both return `s`. -/
theorem sorts_of_length_le_one {E : Type u} [LinearOrder E] [Inhabited E]
    (sortSlice : SliceSorter E) (hsort : SortSliceContract sortSlice) (s : List E)
    (hlen : s.length ≤ 1) :
    AscendingSort sortSlice s = some s ∧ DescendingSort sortSlice s = some s := by
  have hasc : s.Pairwise (fun a b => a ≤ b) := by
    match s, hlen with
    | [], _ => exact List.Pairwise.nil
    | [x], _ => exact List.pairwise_singleton _ x
  have hdesc : s.Pairwise (fun a b => a ≥ b) := by
    match s, hlen with
    | [], _ => exact List.Pairwise.nil
    | [x], _ => exact List.pairwise_singleton _ x
  exact ⟨AscendingSort_unique sortSlice hsort s s (List.Perm.refl s) hasc,
    DescendingSort_unique sortSlice hsort s s (List.Perm.refl s) hdesc⟩

/-- Witness of C13 on the one-element slice `[5]` with the insertion sorter. -/
theorem sorts_of_length_le_one_witness :
    SortSliceContract (sortSliceInsertion : SliceSorter Int) ∧ [(5 : Int)].length ≤ 1 ∧
    AscendingSort sortSliceInsertion [(5 : Int)] = some [5] ∧
    DescendingSort sortSliceInsertion [(5 : Int)] = some [5] :=
  ⟨sortSliceInsertion_contract, by decide,
    sorts_of_length_le_one sortSliceInsertion sortSliceInsertion_contract [5] (by decide)⟩

/-- C16. Given a `sort.Slice` that meets its contract, over a linearly ordered
element type (integers, strings) `AscendingSort s` equals
`Reverse (DescendingSort s)` for every slice `s`, duplicates or not. -/
theorem AscendingSort_eq_Reverse_DescendingSort_always {E : Type u} [LinearOrder E]
    [Inhabited E] (sortSlice : SliceSorter E) (hsort : SortSliceContract sortSlice)
    (s : List E) :
    ∃ a d, AscendingSort sortSlice s = some a ∧ DescendingSort sortSlice s = some d ∧
      Reverse d = some a :=
  ascending_eq_reverse_descending sortSlice hsort s

/-- Witness of C16 on `[2, 1, 2]`, which has a duplicate, with the insertion
sorter. -/
theorem AscendingSort_eq_Reverse_DescendingSort_always_witness :
    SortSliceContract (sortSliceInsertion : SliceSorter Int) ∧ ¬ [(2 : Int), 1, 2].Nodup ∧
    ∃ a d, AscendingSort sortSliceInsertion [(2 : Int), 1, 2] = some a ∧
      DescendingSort sortSliceInsertion [(2 : Int), 1, 2] = some d ∧ Reverse d = some a :=
  ⟨sortSliceInsertion_contract, by decide,
    AscendingSort_eq_Reverse_DescendingSort_always sortSliceInsertion
      sortSliceInsertion_contract [2, 1, 2]⟩

/-- C17. Given a `sort.Slice` that meets its contract, two slices `s` and `t`
that are permutations of each other have the same `AscendingSort` and the same
`DescendingSort`; sorting a sorted result again returns it unchanged. -/
theorem sorts_depend_on_multiset {E : Type u} [LinearOrder E] [Inhabited E]
    (sortSlice : SliceSorter E) (hsort : SortSliceContract sortSlice) (s t : List E)
    (hperm : s.Perm t) :
    ∃ a d, AscendingSort sortSlice s = some a ∧ AscendingSort sortSlice t = some a ∧
      DescendingSort sortSlice s = some d ∧ DescendingSort sortSlice t = some d ∧
      AscendingSort sortSlice a = some a ∧ DescendingSort sortSlice d = some d := by
  obtain ⟨a, ha, hpa, hsa⟩ := AscendingSort_spec sortSlice hsort s
  obtain ⟨d, hd, hpd, hsd⟩ := DescendingSort_spec sortSlice hsort s
  exact ⟨a, d, ha, AscendingSort_unique sortSlice hsort t a (hpa.trans hperm) hsa,
    hd, DescendingSort_unique sortSlice hsort t d (hpd.trans hperm) hsd,
    AscendingSort_unique sortSlice hsort a a (List.Perm.refl a) hsa,
    DescendingSort_unique sortSlice hsort d d (List.Perm.refl d) hsd⟩

/-- Witness of C17 on `[3, 1, 2]` and its permutation `[2, 3, 1]` with the
insertion sorter. -/
theorem sorts_depend_on_multiset_witness :
    SortSliceContract (sortSliceInsertion : SliceSorter Int) ∧
    [(3 : Int), 1, 2].Perm [2, 3, 1] ∧
    ∃ a d, AscendingSort sortSliceInsertion [(3 : Int), 1, 2] = some a ∧
      AscendingSort sortSliceInsertion [(2 : Int), 3, 1] = some a ∧
      DescendingSort sortSliceInsertion [(3 : Int), 1, 2] = some d ∧
      DescendingSort sortSliceInsertion [(2 : Int), 3, 1] = some d ∧
      AscendingSort sortSliceInsertion a = some a ∧
      DescendingSort sortSliceInsertion d = some d :=
  ⟨sortSliceInsertion_contract, by decide,
    sorts_depend_on_multiset sortSliceInsertion sortSliceInsertion_contract
      [3, 1, 2] [2, 3, 1] (by decide)⟩

/-! ## Reduce and Map: algebraic laws -/

/-- C18. `Reduce` splits over concatenation:
`Reduce (s ++ t) init f = Reduce t (Reduce s init f) f`. -/
theorem Reduce_append {E : Type u} (s t : List E) (init : E) (f : E → E → E) :
    Reduce (s ++ t) init f = Reduce t (Reduce s init f) f := by
  rw [Reduce_eq_foldl, Reduce_eq_foldl, Reduce_eq_foldl, List.foldl_append]

/-- C20. `Map` commutes with `Reverse`: mapping the reversed slice and
reversing the mapped slice both return, with the same result. -/
theorem Map_Reverse_comm {E : Type u} {F : Type v} [Inhabited F] (s : List E) (f : E → F) :
    ∃ r m y, Reverse s = some r ∧ Map r f = some y ∧ Map s f = some m ∧
      Reverse m = some y :=
  ⟨s.reverse, s.map f, s.reverse.map f, Reverse_eq_reverse s, Map_eq_map s.reverse f,
    Map_eq_map s f, by rw [Reverse_eq_reverse, List.map_reverse]⟩

/-! ## No index is out of range -/

theorem ContainsChecked_of_total {E : Type u} [BEq E] (v : E) :
    ∀ s : List E, ContainsChecked (fun a b => some (a == b)) s v = some (Contains s v)
  | [] => rfl
  | vs :: rest => by
    cases h : (v == vs) with
    | true => simp [ContainsChecked, Contains, h]
    | false => simp [ContainsChecked, Contains, h, ContainsChecked_of_total v rest]

theorem FilterChecked.loop_of_total {E : Type u} (p : E → Bool) :
    ∀ (s result : List E),
      FilterChecked.loop (fun x => some (p x)) s result = some (Filter.loop p s result)
  | [], result => rfl
  | v :: rest, result => by
    cases h : p v with
    | true => simp [FilterChecked.loop, Filter.loop, h, FilterChecked.loop_of_total p rest]
    | false => simp [FilterChecked.loop, Filter.loop, h, FilterChecked.loop_of_total p rest]

theorem ReduceChecked_of_total {E : Type u} (g : E → E → E) :
    ∀ (s : List E) (cur : E),
      ReduceChecked s cur (fun a x => some (g a x)) = some (Reduce s cur g)
  | [], cur => rfl
  | v :: rest, cur => by
    simp only [ReduceChecked, Reduce]
    exact ReduceChecked_of_total g rest (g cur v)

theorem FilterSlice.loop_elems {E : Type u} (f : E → Bool) :
    ∀ (s : List E) (result : GoSlice E),
      (FilterSlice.loop f s result).elems = Filter.loop f s result.elems
  | [], result => rfl
  | v :: rest, result => by
    by_cases h : f v = true
    · simp [FilterSlice.loop, Filter.loop, h, FilterSlice.loop_elems f rest, GoSlice.append]
    · simp [FilterSlice.loop, Filter.loop, h, FilterSlice.loop_elems f rest]

theorem FilterSlice.loop_isNil {E : Type u} (f : E → Bool) :
    ∀ (s : List E) (result : GoSlice E), result.isNil = false →
      (FilterSlice.loop f s result).isNil = false
  | [], result, hres => hres
  | v :: rest, result, hres => by
    by_cases h : f v = true
    · simp only [FilterSlice.loop, h, if_true]
      exact FilterSlice.loop_isNil f rest _ rfl
    · simp only [FilterSlice.loop, h]
      exact FilterSlice.loop_isNil f rest result hres

theorem FilterSlice_elems {E : Type u} (s : GoSlice E) (f : E → Bool) :
    (FilterSlice s f).elems = Filter s.elems f ∧ (FilterSlice s f).isNil = false :=
  ⟨FilterSlice.loop_elems f s.elems (GoSlice.lit []),
    FilterSlice.loop_isNil f s.elems (GoSlice.lit []) rfl⟩

/-- C14. When `p` is false on every element of `s`, `Filter s p` has no
element and is not the nil slice; so has `Filter` of the empty slice and of the
nil slice, for every predicate. -/
theorem Filter_empty_not_nil {E : Type u} (s : GoSlice E) (p : E → Bool)
    (hfalse : ∀ x ∈ s.elems, p x = false) :
    ((FilterSlice s p).elems = [] ∧ (FilterSlice s p).isNil = false) ∧
    (∀ q : E → Bool, (FilterSlice (GoSlice.lit []) q).elems = [] ∧
      (FilterSlice (GoSlice.lit []) q).isNil = false) ∧
    (∀ q : E → Bool, (FilterSlice GoSlice.nil q).elems = [] ∧
      (FilterSlice GoSlice.nil q).isNil = false) := by
  refine ⟨⟨?_, (FilterSlice_elems s p).2⟩, fun q => ⟨rfl, rfl⟩, fun q => ⟨rfl, rfl⟩⟩
  rw [(FilterSlice_elems s p).1, Filter_eq_filter, List.filter_eq_nil_iff]
  intro x hx
  simp [hfalse x hx]

/-- Witness of C14 on `[1, 3]` with the predicate "is even". -/
theorem Filter_empty_not_nil_witness :
    (∀ x ∈ (GoSlice.lit [(1 : Int), 3]).elems, (fun x : Int => x % 2 == 0) x = false) ∧
    ((FilterSlice (GoSlice.lit [(1 : Int), 3]) (fun x => x % 2 == 0)).elems = [] ∧
      (FilterSlice (GoSlice.lit [(1 : Int), 3]) (fun x => x % 2 == 0)).isNil = false) ∧
    (∀ q : Int → Bool, (FilterSlice (GoSlice.lit []) q).elems = [] ∧
      (FilterSlice (GoSlice.lit []) q).isNil = false) ∧
    (∀ q : Int → Bool, (FilterSlice GoSlice.nil q).elems = [] ∧
      (FilterSlice GoSlice.nil q).isNil = false) :=
  ⟨by decide,
    Filter_empty_not_nil (GoSlice.lit [1, 3]) (fun x => x % 2 == 0) (by decide)⟩

/-! ## Map: the calls of the transform -/

theorem MapEff.loop_logging {E : Type} {F : Type v} (s : List E) (g : E → F) :
    ∀ (n i : Nat) (result : List F) (log : List E), i + n = s.length →
      result.length = s.length →
      MapEff.loop s (logging g) n i result log
        = some (result.take i ++ (s.drop i).map g, log ++ s.drop i)
  | 0, i, result, log, hi, hlen => by
    have h1 : s.drop i = [] := List.drop_eq_nil_of_le (by omega)
    have h2 : result.take i = result := List.take_of_length_le (by omega)
    simp [MapEff.loop, h1, h2]
  | n + 1, i, result, log, hi, hlen => by
    have hlt : i < s.length := by omega
    have hget : s[i]? = some s[i] := List.getElem?_eq_getElem hlt
    have hset : setIndex result i (g s[i]) = some (result.set i (g s[i])) := by
      simp [setIndex, hlen, hlt]
    have hdrop : s.drop i = s[i] :: s.drop (i + 1) := List.drop_eq_getElem_cons hlt
    have htake : (result.set i (g s[i])).take (i + 1) = result.take i ++ [g s[i]] := by
      rw [List.take_succ, List.set_take,
        List.set_eq_of_length_le (by rw [List.length_take]; exact Nat.min_le_left _ _)]
      simp [hlen, hlt]
    simp only [MapEff.loop, hget, logging, hset]
    rw [MapEff.loop_logging s g n (i + 1) _ _ (by omega) (by simpa using hlen), hdrop, htake,
      List.map_cons, List.append_assoc, List.append_assoc]
    rfl

theorem MapEff.loop_pure {E : Type u} {F : Type v} {σ : Type} (s : List E) (f : E → F) :
    ∀ (n i : Nat) (result : List F) (st : σ),
      MapEff.loop s (fun x st1 => (f x, st1)) n i result st
        = (Map.loop s f n i result).map (fun r => (r, st))
  | 0, i, result, st => rfl
  | n + 1, i, result, st => by
    cases hget : s[i]? with
    | none => simp [MapEff.loop, Map.loop, hget]
    | some x =>
      cases hset : setIndex result i (f x) with
      | none => simp [MapEff.loop, Map.loop, hget, hset]
      | some result1 =>
        simp only [MapEff.loop, Map.loop, hget, hset]
        exact MapEff.loop_pure s f n (i + 1) result1 st

theorem MapEff_pure {E : Type u} {F : Type v} {σ : Type} [Inhabited F] (s : List E)
    (f : E → F) (st : σ) :
    MapEff s (fun x st1 => (f x, st1)) st = (Map s f).map (fun r => (r, st)) :=
  MapEff.loop_pure s f s.length 0 (make F s.length) st

/-- C15. With a transform that logs its argument at every call, `Map s f`
returns the image of `s` and the log of the call is exactly `s`: one call per
element, in the order of `s`. -/
theorem Map_calls_once_in_order {E : Type} {F : Type v} [Inhabited F] (s : List E)
    (g : E → F) :
    MapEff s (logging g) [] = some (s.map g, s) := by
  unfold MapEff
  rw [MapEff.loop_logging s g s.length 0 _ [] (by simp) (by simp [make])]
  simp

/-! ## Contains after Filter -/

/-- C19, counterexample. With the two zeros of a `float64`, where `+0 == -0`:
for `s = [-0]`, `v = +0` and `p` = "sign bit clear", `Contains s v` and `p v`
are true while `Contains (Filter s p) v` is false. -/
theorem Contains_Filter_counterexample :
    @Contains SignedZero ⟨SignedZero.eq⟩ [SignedZero.neg] SignedZero.pos = true ∧
    SignedZero.signClear SignedZero.pos = true ∧
    Filter [SignedZero.neg] SignedZero.signClear = [] ∧
    @Contains SignedZero ⟨SignedZero.eq⟩
      (Filter [SignedZero.neg] SignedZero.signClear) SignedZero.pos = false :=
  ⟨rfl, rfl, rfl, rfl⟩

/-- C19, amended. When `p` gives the same answer on `v` and on every element
of `s` that compares `==` to `v`, `Contains (Filter s p) v` is true exactly
when `Contains s v` and `p v` are true. -/
theorem Contains_Filter_iff {E : Type u} [BEq E] (s : List E) (p : E → Bool) (v : E)
    (hp : ∀ x ∈ s, (v == x) = true → p x = p v) :
    Contains (Filter s p) v = true ↔ Contains s v = true ∧ p v = true := by
  rw [Contains_eq_true_iff (Filter s p) v, Contains_eq_true_iff s v, Filter_eq_filter]
  constructor
  · rintro ⟨x, hx, hvx⟩
    obtain ⟨hxs, hpx⟩ := List.mem_filter.mp hx
    exact ⟨⟨x, hxs, hvx⟩, by rw [← hp x hxs hvx]; exact hpx⟩
  · rintro ⟨⟨x, hxs, hvx⟩, hpv⟩
    exact ⟨x, List.mem_filter.mpr ⟨hxs, by rw [hp x hxs hvx]; exact hpv⟩, hvx⟩

/-- Witness of the amended C19 on `[1, 2, 3, 4]`, "is even" and `2`. -/
theorem Contains_Filter_iff_witness :
    (∀ x ∈ [(1 : Int), 2, 3, 4], ((2 : Int) == x) = true →
      (fun x : Int => x % 2 == 0) x = (fun x : Int => x % 2 == 0) 2) ∧
    (Contains (Filter [(1 : Int), 2, 3, 4] (fun x => x % 2 == 0)) 2 = true ↔
      Contains [(1 : Int), 2, 3, 4] 2 = true ∧ (fun x : Int => x % 2 == 0) 2 = true) :=
  ⟨by decide, Contains_Filter_iff [1, 2, 3, 4] (fun x => x % 2 == 0) 2 (by decide)⟩

/-! ## The concrete scenarios of the specification -/

theorem Contains_scenario :
    Contains [1, 2, 3] 2 = true ∧ Contains [1, 2, 3] 5 = false := by decide

theorem Reverse_scenario : Reverse [1, 2, 3] = some [3, 2, 1] := by decide

theorem sort_scenario :
    AscendingSort sortSliceInsertion [3, 1, 2] = some [1, 2, 3] ∧
    DescendingSort sortSliceInsertion [3, 1, 2] = some [3, 2, 1] := by decide

theorem Map_scenario : Map [1, 2, 3] (fun x => x * 2) = some [2, 4, 6] := by decide

theorem Filter_scenario : Filter [1, 2, 3, 4] (fun x => x % 2 == 0) = [2, 4] := by decide

theorem Reduce_scenario : Reduce [1, 2, 3, 4] 0 (fun acc x => acc + x) = 10 := by decide

theorem sortOnHeap_scenario :
    AscendingSortOnHeap sortSliceInsertion [[3, 1, 2]] 0 = some ([[3, 1, 2], [1, 2, 3]], 1) ∧
    DescendingSortOnHeap sortSliceInsertion [[3, 1, 2]] 0 = some ([[3, 1, 2], [3, 2, 1]], 1) ∧
    ReverseOnHeap [[3, 1, 2]] 0 = some ([[3, 1, 2], [2, 1, 3]], 1) := by decide

end genfp
